import Mathlib

/-!
Verification of the `fm-ts-fund-v2` utilities.

This file gives a shallow embedding of the three pieces of program logic in
the repository and proves properties about them:

* `resolveOrTimeout` (src/unnamed/part_001, lines 56-69): a promise raced
  against a `setTimeout` timer.  We model the executor as a small-step
  transition system over the state of the outer promise and of the timer.
* `mapDict` (src/challenges/dict/src/index.ts, lines 12-24): `Object.keys`
  iteration over a string-keyed dictionary whose values may be `undefined`,
  building a fresh output object.
* `arrayToDict` (src/unnamed/part_001, lines 78-86): folding an array of
  records with a string `id` field into an object keyed by `id`.
* `reduceDict` (src/challenges/dict/src/index.ts, line 37): an empty stub in
  the source; modelled from the specification's fold contract.
-/

namespace TsFund

/-! ## The `resolveOrTimeout` race

Source (src/unnamed/part_001):

```
function resolveOrTimeout<T>(promise: Promise<T>, timeout: number): Promise<T> {
  return new Promise<T>((resolve, reject) => {
    const task = setTimeout(() => reject("time up!"), timeout);
    promise.then((val) => {
      clearTimeout(task);
      resolve(val);
    });
  });
}
```

The outer promise can settle at most once (`resolve`/`reject` after the first
settlement are no-ops); the timer callback runs only if `clearTimeout` has not
been called.  We embed the executor as a deterministic step function over the
two scheduler events that can occur: the timer firing, and the wrapped
computation settling (with a success value or a failure cause).  Note that the
source installs only a fulfillment handler (`promise.then((val) => ...)`);
there is no rejection handler, so a `compSettles (failure e)` event runs no
code of the executor at all.
-/

/-- Outcome of the wrapped computation: it either fulfills with a value of
type `α` or rejects with a cause of type `ε`. -/
inductive CompOutcome (α ε : Type) where
  | success (v : α)
  | failure (e : ε)
deriving DecidableEq

/-- Rejection reason of the outer promise: either the timer's rejection
(the source rejects with the string literal `"time up!"`), or the wrapped
computation's own cause (a value of type `ε`) if it were propagated. -/
inductive RaceErr (ε : Type) where
  | timeout (msg : String)
  | compFailure (e : ε)
deriving DecidableEq

/-- Settled state of the outer promise. -/
inductive Settled (α ε : Type) where
  | resolved (v : α)
  | rejected (e : RaceErr ε)
deriving DecidableEq

/-- State of one invocation of `resolveOrTimeout`: whether (and how) the
outer promise has settled, and whether the `setTimeout` task is still
scheduled (`clearTimeout` has not run and the timer has not fired). -/
structure RaceState (α ε : Type) where
  settled : Option (Settled α ε)
  timerActive : Bool
deriving DecidableEq

/-- `resolve(v)`: settles the outer promise with `v` unless it is already
settled (promises settle at most once). -/
def resolveP (s : RaceState α ε) (v : α) : RaceState α ε :=
  match s.settled with
  | none => { s with settled := some (Settled.resolved v) }
  | some _ => s

/-- `reject(e)`: settles the outer promise with failure `e` unless it is
already settled. -/
def rejectP (s : RaceState α ε) (e : RaceErr ε) : RaceState α ε :=
  match s.settled with
  | none => { s with settled := some (Settled.rejected e) }
  | some _ => s

/-- A scheduler event observed by the executor: the timer's deadline being
reached, or the wrapped computation settling. -/
inductive Event (α ε : Type) where
  | timerFires
  | compSettles (o : CompOutcome α ε)
deriving DecidableEq

/-- One scheduler step of the `resolveOrTimeout` executor.

* `timerFires`: if the task is still scheduled its callback
  `() => reject("time up!")` runs (and the one-shot timer is consumed);
  if `clearTimeout` already ran, nothing happens.
* `compSettles (success v)`: the fulfillment handler
  `(val) => { clearTimeout(task); resolve(val); }` runs.
* `compSettles (failure e)`: the source attaches no rejection handler to
  `promise`, so no executor code runs. -/
def step (s : RaceState α ε) : Event α ε → RaceState α ε
  | Event.timerFires =>
      if s.timerActive then
        rejectP { s with timerActive := false } (RaceErr.timeout "time up!")
      else s
  | Event.compSettles (CompOutcome.success v) =>
      resolveP { s with timerActive := false } v
  | Event.compSettles (CompOutcome.failure _) => s

/-- State right after `new Promise` runs the executor body: the outer promise
is pending and `setTimeout` has scheduled the timer task. -/
def initState (α ε : Type) : RaceState α ε := ⟨none, true⟩

/-- Run the executor over a sequence of scheduler events. -/
def run (events : List (Event α ε)) : RaceState α ε :=
  events.foldl step (initState α ε)

/-- Number of settling transitions (pending to settled) along a run. -/
def settleCount (s : RaceState α ε) : List (Event α ε) → Nat
  | [] => 0
  | e :: rest =>
      (if s.settled.isNone && ((step s e).settled).isSome then 1 else 0) +
        settleCount (step s e) rest

/-! ## Dictionaries

Source (src/challenges/dict/src/index.ts):

```
export type Dict<T> = {
  [anythingWeWant: string]: T | undefined;
};

export function mapDict<T, S>(
  dict: Dict<T>,
  fn: (arg: T, idx: number) => S
): Dict<S> {
  const out: Dict<S> = {};
  Object.keys(dict).forEach((dKey, idx) => {
    let currentItem = dict[dKey];
    if (typeof currentItem !== "undefined") {
      out[dKey] = fn(currentItem, idx);
    }
  });
  return out;
}
```

A JavaScript object is modelled as an association list in property-insertion
order; its keys are pairwise distinct.  A `Dict T` stores values of type
`T | undefined`, modelled as `Option T` (`none` is `undefined`). -/

/-- `Dict<T>`: a string-keyed object in iteration (insertion) order whose
stored values may be `undefined` (`none`). -/
abbrev Dict (T : Type) := List (String × Option T)

/-- Property read `obj[k]` on an object modelled as an association list:
`some v` if key `k` is present with stored value `v`, `none` if absent. -/
def objGet : List (String × β) → String → Option β
  | [], _ => none
  | (k', v) :: rest, k => if k' = k then some v else objGet rest k

/-- Property write `obj[k] = v`: overwrites in place if `k` is present
(keeping its position in iteration order), otherwise appends `(k, v)` at the
end, as JavaScript objects do. -/
def objSet : List (String × β) → String → β → List (String × β)
  | [], k, v => [(k, v)]
  | (k', v') :: rest, k, v =>
      if k' = k then (k, v) :: rest else (k', v') :: objSet rest k v

/-- `Object.keys dict`: the keys in iteration order. -/
def objKeys (dict : List (String × β)) : List String :=
  dict.map Prod.fst

/-- Reading `dict[dKey]` on a `Dict T` yields `undefined` both when the key
is absent and when it is present holding `undefined`. -/
def dictRead (dict : Dict T) (k : String) : Option T :=
  (objGet dict k).getD none

/-- Body of the `forEach` loop of `mapDict`, acting on the pair of mutable
objects `(dict, out)` for the entry `(idx, dKey)` of `Object.keys(dict)`:
reads `currentItem = dict[dKey]` and, if it is defined, writes
`out[dKey] = fn(currentItem, idx)`.  `dict` itself is never written. -/
def mapDictStep (fn : T → Nat → S) (st : Dict T × Dict S) (p : Nat × String) :
    Dict T × Dict S :=
  match dictRead st.1 p.2 with
  | none => st
  | some v => (st.1, objSet st.2 p.2 (some (fn v p.1)))

/-- The state of the two objects `(dict, out)` after `mapDict`'s loop has run
over `Object.keys(dict)` with indices. -/
def mapDictRun (dict : Dict T) (fn : T → Nat → S) : Dict T × Dict S :=
  ((objKeys dict).enum).foldl (mapDictStep fn) (dict, [])

/-- `mapDict dict fn`: the object `out` returned by the source. -/
def mapDict (dict : Dict T) (fn : T → Nat → S) : Dict S :=
  (mapDictRun dict fn).2

/-- Recursive characterization of `mapDict`'s output: walk the entries with a
running index, skipping entries whose stored value is `undefined` and keeping
`fn value idx` for defined ones. -/
def mapDictAux (fn : T → Nat → S) : Nat → Dict T → Dict S
  | _, [] => []
  | i, (_, none) :: rest => mapDictAux fn (i + 1) rest
  | i, (k, some v) :: rest => (k, some (fn v i)) :: mapDictAux fn (i + 1) rest

/-- Modelled from the spec: `reduceDict` is an empty stub in the source
(`export function reduceDict() {}`), so its behavior is taken from the
specification's contract: fold `fn : (acc, value, key) -> acc` over the
dictionary's entries in iteration order starting from `initial`, visiting
every (defined) entry exactly once and returning the final accumulator. -/
def reduceDict (dict : Dict T) (fn : A → T → String → A) (initial : A) : A :=
  dict.foldl
    (fun acc p =>
      match p.2 with
      | none => acc
      | some v => fn acc v p.1)
    initial

/-! ## `arrayToDict`

Source (src/unnamed/part_001):

```
function arrayToDict<T extends { id: string }>(array: T[]): { [k: string]: T } {
  const out: { [k: string]: T } = {};
  array.forEach((val) => {
    out[val.id] = val;
  });
  return out;
}
```
-/

/-- A record with a string `id` field (the source constraint on `T`);
`payload` stands for the record's other fields. -/
structure IdRecord (β : Type) where
  id : String
  payload : β
deriving DecidableEq

/-- Body of the `forEach` loop of `arrayToDict`, acting on the pair of the
mutable variables `(array, out)`: executes `out[val.id] = val`.  `array`
itself is never written. -/
def arrayToDictStep (st : List (IdRecord β) × List (String × IdRecord β))
    (val : IdRecord β) : List (IdRecord β) × List (String × IdRecord β) :=
  (st.1, objSet st.2 val.id val)

/-- The state of `(array, out)` after `arrayToDict`'s loop has run over the
elements of `array`. -/
def arrayToDictRun (array : List (IdRecord β)) :
    List (IdRecord β) × List (String × IdRecord β) :=
  array.foldl arrayToDictStep (array, [])

/-- `arrayToDict array`: the object `out` returned by the source. -/
def arrayToDict (array : List (IdRecord β)) : List (String × IdRecord β) :=
  (arrayToDictRun array).2

/-! ## Theorems about the race -/

/-- Once the outer promise is settled, no event changes its settlement
(promises settle at most once). -/
theorem step_settled_of_settled (s : RaceState α ε) (e : Event α ε)
    (h : s.settled ≠ none) : (step s e).settled = s.settled := by
  obtain ⟨st, tm⟩ := s
  cases st with
  | none => exact absurd rfl h
  | some x =>
      cases e with
      | timerFires => cases tm <;> rfl
      | compSettles o => cases o <;> rfl

/-- An already-settled invocation performs no further settling transition. -/
theorem settleCount_of_settled (evs : List (Event α ε)) :
    ∀ s : RaceState α ε, s.settled ≠ none → settleCount s evs = 0 := by
  induction evs with
  | nil => intro s _; rfl
  | cons e rest ih =>
      intro s h
      have hstep : (step s e).settled = s.settled := step_settled_of_settled s e h
      have h1 : s.settled.isNone = false := by
        cases hs : s.settled with
        | none => exact absurd hs h
        | some x => rfl
      have h2 : settleCount (step s e) rest = 0 := ih (step s e) (by rw [hstep]; exact h)
      simp [settleCount, h1, h2]

/-- At most one settling transition happens along any event sequence. -/
theorem settleCount_le_one (evs : List (Event α ε)) :
    ∀ s : RaceState α ε, settleCount s evs ≤ 1 := by
  induction evs with
  | nil => intro s; exact Nat.zero_le 1
  | cons e rest ih =>
      intro s
      by_cases h2 : (step s e).settled = none
      · have c1 : (s.settled.isNone && ((step s e).settled).isSome) = false := by
          simp [h2]
        calc settleCount s (e :: rest)
            = 0 + settleCount (step s e) rest := by simp [settleCount, c1]
          _ ≤ 1 := by simpa using ih (step s e)
      · have h3 : settleCount (step s e) rest = 0 := settleCount_of_settled rest _ h2
        have : settleCount s (e :: rest) =
            (if s.settled.isNone && ((step s e).settled).isSome then 1 else 0) := by
          simp [settleCount, h3]
        rw [this]
        split <;> simp

/-- Claim C1 (amended): if the wrapped computation fulfills before the timer
fires, the timer is cancelled and `resolveOrTimeout` resolves with the same
value.  If the wrapped computation fails before the timer fires, its failure
is not propagated: the source installs no rejection handler, so the event
leaves the state untouched (outer promise still pending, timer still
scheduled), and the race later rejects with the timer's `"time up!"`
reason. -/
theorem resolveOrTimeout_success_propagates (α ε : Type) :
    (∀ v : α,
      run [Event.compSettles (CompOutcome.success v), Event.timerFires] =
        ({ settled := some (Settled.resolved v), timerActive := false } :
          RaceState α ε)) ∧
    (∀ e : ε,
      run [Event.compSettles (CompOutcome.failure e)] = initState α ε ∧
      run [Event.compSettles (CompOutcome.failure e), Event.timerFires] =
        ({ settled := some (Settled.rejected (RaceErr.timeout "time up!")),
           timerActive := false } : RaceState α ε)) :=
  ⟨fun _ => rfl, fun _ => ⟨rfl, rfl⟩⟩

/-- Claim C1, counterexample: with the wrapped computation failing (cause
`0`) before the timer fires, the race does not propagate the failure cause;
it ends rejected with the timer's `"time up!"` reason instead. -/
theorem resolveOrTimeout_failure_not_propagated :
    (run [Event.compSettles (CompOutcome.failure 0), Event.timerFires] :
        RaceState Nat Nat).settled ≠
      some (Settled.rejected (RaceErr.compFailure 0)) ∧
    (run [Event.compSettles (CompOutcome.failure 0), Event.timerFires] :
        RaceState Nat Nat).settled =
      some (Settled.rejected (RaceErr.timeout "time up!")) :=
  ⟨by decide, rfl⟩

/-- Claim C2: if the timer fires before the wrapped computation settles, the
race rejects with the timer's `Timeout` reason (the string `"time up!"`), and
whatever the computation produces afterward is discarded: processing its
settlement event leaves the state exactly unchanged (no double settlement, no
observable effect). -/
theorem resolveOrTimeout_timer_first (α ε : Type) :
    ∀ o : CompOutcome α ε,
      run [Event.timerFires, Event.compSettles o] =
        ({ settled := some (Settled.rejected (RaceErr.timeout "time up!")),
           timerActive := false } : RaceState α ε) ∧
      step (run [Event.timerFires]) (Event.compSettles o) =
        run [Event.timerFires] := by
  intro o
  cases o <;> exact ⟨rfl, rfl⟩

/-- Claim C3 (amended): if the wrapped computation fulfills before the timer
fires, `clearTimeout` runs at that settlement, so no timer callback remains
scheduled and a later timer deadline has no effect; if the wrapped
computation fails before the timer fires, the timer is left scheduled. -/
theorem resolveOrTimeout_timer_cancelled_on_fulfillment (α ε : Type) :
    (∀ v : α,
      (run [Event.compSettles (CompOutcome.success v)] :
          RaceState α ε).timerActive = false ∧
      step (run [Event.compSettles (CompOutcome.success v)] : RaceState α ε)
          Event.timerFires =
        run [Event.compSettles (CompOutcome.success v)]) ∧
    (∀ e : ε,
      (run [Event.compSettles (CompOutcome.failure e)] :
          RaceState α ε).timerActive = true) :=
  ⟨fun _ => ⟨rfl, rfl⟩, fun _ => rfl⟩

/-- Claim C3, counterexample: after the wrapped computation settles by
failing (cause `0`), the timer callback is still scheduled, and the later
timer deadline does change the state (the callback fires after the
computation has settled). -/
theorem resolveOrTimeout_timer_left_pending :
    (run [Event.compSettles (CompOutcome.failure 0)] :
        RaceState Nat Nat).timerActive = true ∧
    run [Event.compSettles (CompOutcome.failure 0), Event.timerFires] ≠
      (run [Event.compSettles (CompOutcome.failure 0)] : RaceState Nat Nat) :=
  ⟨rfl, by decide⟩

/-- Claim C4: along every event sequence at most one settling transition
(pending to settled) occurs; along each complete run (both events, in either
order) exactly one occurs; and the terminal state reached is a function of
which of the two concurrent events is observed first: computation fulfillment
first gives `resolved v`, timer first gives the `"time up!"` rejection, and
computation failure first also ends in the `"time up!"` rejection (the
`compFailure` terminal state is never reached, since no rejection handler is
installed). -/
theorem resolveOrTimeout_exactly_one_settlement (α ε : Type) :
    (∀ evs : List (Event α ε), settleCount (initState α ε) evs ≤ 1) ∧
    (∀ o : CompOutcome α ε,
      settleCount (initState α ε) [Event.compSettles o, Event.timerFires] = 1 ∧
      settleCount (initState α ε) [Event.timerFires, Event.compSettles o] = 1 ∧
      run [Event.compSettles o, Event.timerFires] =
        (match o with
          | CompOutcome.success v =>
              ({ settled := some (Settled.resolved v), timerActive := false } :
                RaceState α ε)
          | CompOutcome.failure _ =>
              { settled := some (Settled.rejected (RaceErr.timeout "time up!")),
                timerActive := false }) ∧
      run [Event.timerFires, Event.compSettles o] =
        ({ settled := some (Settled.rejected (RaceErr.timeout "time up!")),
           timerActive := false } : RaceState α ε)) := by
  refine ⟨fun evs => settleCount_le_one evs _, fun o => ?_⟩
  cases o <;> exact ⟨rfl, rfl, rfl, rfl⟩

/-! ## Association-list lemmas for the object model -/

/-- Reading a key that the object holds (keys being distinct) returns its
stored value. -/
theorem objGet_mem (l : List (String × γ)) (k : String) (v : γ)
    (hnd : (l.map Prod.fst).Nodup) (hmem : (k, v) ∈ l) : objGet l k = some v := by
  induction l with
  | nil => simp at hmem
  | cons hd rest ih =>
      obtain ⟨k0, v0⟩ := hd
      simp only [List.map_cons, List.nodup_cons] at hnd
      rcases List.mem_cons.mp hmem with heq | hmem2
      · have h1 : k = k0 := congrArg Prod.fst heq
        have h2 : v = v0 := congrArg Prod.snd heq
        subst h1; subst h2
        simp [objGet]
      · have hk : k ∈ rest.map Prod.fst :=
          List.mem_map.mpr ⟨(k, v), hmem2, rfl⟩
        have hne : ¬(k0 = k) := fun hh => hnd.1 (hh ▸ hk)
        simp [objGet, hne, ih hnd.2 hmem2]

/-- Writing a fresh key appends the pair at the end of iteration order. -/
theorem objSet_of_not_mem (l : List (String × γ)) (k : String) (v : γ)
    (h : k ∉ l.map Prod.fst) : objSet l k v = l ++ [(k, v)] := by
  induction l with
  | nil => rfl
  | cons hd rest ih =>
      obtain ⟨k0, v0⟩ := hd
      simp only [List.map_cons, List.mem_cons] at h
      push_neg at h
      have hne : ¬(k0 = k) := fun hh => h.1 hh.symm
      simp [objSet, hne, ih h.2]

/-- Reading after a write: the written key returns the new value, other keys
are unaffected. -/
theorem objGet_objSet (l : List (String × γ)) (k q : String) (v : γ) :
    objGet (objSet l k v) q = if k = q then some v else objGet l q := by
  induction l with
  | nil => simp [objSet, objGet]
  | cons hd rest ih =>
      obtain ⟨k0, v0⟩ := hd
      by_cases h : k0 = k
      · subst h
        simp only [objSet, if_pos rfl]
        by_cases hq : k0 = q <;> simp [objGet, hq]
      · simp only [objSet, if_neg h]
        by_cases hq : k0 = q
        · subst hq
          have : ¬(k = k0) := fun hh => h hh.symm
          simp [objGet, this]
        · simp [objGet, hq, ih]

/-- A read returns `none` exactly when the key is absent. -/
theorem objGet_eq_none_iff (l : List (String × γ)) (k : String) :
    objGet l k = none ↔ k ∉ l.map Prod.fst := by
  induction l with
  | nil => simp [objGet]
  | cons hd rest ih =>
      obtain ⟨k0, v0⟩ := hd
      by_cases h : k0 = k
      · subst h; simp [objGet]
      · have hne : ¬(k = k0) := fun hh => h hh.symm
        simp [objGet, h, ih, hne]

/-- Keys after a write: unchanged if the key was present, otherwise the key
is appended. -/
theorem objSet_keys (l : List (String × γ)) (k : String) (v : γ) :
    (objSet l k v).map Prod.fst =
      if k ∈ l.map Prod.fst then l.map Prod.fst
      else l.map Prod.fst ++ [k] := by
  induction l with
  | nil => simp [objSet]
  | cons hd rest ih =>
      obtain ⟨k0, v0⟩ := hd
      by_cases h : k0 = k
      · subst h; simp [objSet]
      · have hne : ¬(k = k0) := fun hh => h hh.symm
        by_cases hm : k ∈ rest.map Prod.fst
        · simp [objSet, h, ih, hm, hne]
        · simp [objSet, h, ih, hm, hne]

/-- A write preserves distinctness of keys. -/
theorem objSet_nodup (l : List (String × γ)) (k : String) (v : γ)
    (h : (l.map Prod.fst).Nodup) : ((objSet l k v).map Prod.fst).Nodup := by
  rw [objSet_keys]
  by_cases hm : k ∈ l.map Prod.fst
  · simpa [hm] using h
  · simp only [if_neg hm]
    simp [List.nodup_append, h, hm]

/-! ## `mapDict`'s loop -/

/-- The loop of `mapDict` never writes to the input object. -/
theorem mapDict_foldl_fst (fn : T → Nat → S) :
    ∀ (l : List (Nat × String)) (st : Dict T × Dict S),
      (List.foldl (mapDictStep fn) st l).1 = st.1 := by
  intro l
  induction l with
  | nil => intro st; rfl
  | cons p rest ih =>
      intro st
      rw [List.foldl_cons, ih]
      unfold mapDictStep
      split <;> rfl

/-- Characterization of `mapDict`'s loop over a tail `sub` of the entries:
reading a snapshot `dict0` whose reads agree with `sub`, with keys pairwise
distinct and not yet present in `out`, the loop appends exactly
`mapDictAux fn n sub` after `out`. -/
theorem mapDict_loop_eq (fn : T → Nat → S) (dict0 : Dict T) :
    ∀ (sub : Dict T) (n : Nat) (out : Dict S),
      (∀ p ∈ sub, dictRead dict0 p.1 = p.2) →
      ((sub.map Prod.fst).Nodup) →
      (∀ k ∈ sub.map Prod.fst, k ∉ out.map Prod.fst) →
      List.foldl (mapDictStep fn) (dict0, out)
          (List.enumFrom n (sub.map Prod.fst)) =
        (dict0, out ++ mapDictAux fn n sub) := by
  intro sub
  induction sub with
  | nil =>
      intro n out _ _ _
      simp [mapDictAux, List.enumFrom]
  | cons hd rest ih =>
      intro n out hread hnd hdisj
      obtain ⟨k, v⟩ := hd
      have hk : dictRead dict0 k = v := hread (k, v) (List.mem_cons_self _ _)
      simp only [List.map_cons, List.enumFrom, List.foldl_cons] at *
      rw [List.nodup_cons] at hnd
      cases v with
      | none =>
          have hstep : mapDictStep fn (dict0, out) (n, k) = (dict0, out) := by
            simp [mapDictStep, hk]
          rw [hstep]
          have := ih (n + 1) out
            (fun p hp => hread p (List.mem_cons_of_mem _ hp))
            hnd.2
            (fun q hq => hdisj q (List.mem_cons_of_mem _ hq))
          rw [this]
          rfl
      | some w =>
          have hkout : k ∉ out.map Prod.fst := hdisj k (List.mem_cons_self _ _)
          have hstep : mapDictStep fn (dict0, out) (n, k) =
              (dict0, out ++ [(k, some (fn w n))]) := by
            simp [mapDictStep, hk, objSet_of_not_mem out k _ hkout]
          rw [hstep]
          have := ih (n + 1) (out ++ [(k, some (fn w n))])
            (fun p hp => hread p (List.mem_cons_of_mem _ hp))
            hnd.2
            (fun q hq => by
              simp only [List.map_append, List.mem_append, List.map_cons,
                List.map_nil, List.mem_singleton]
              push_neg
              exact ⟨hdisj q (List.mem_cons_of_mem _ hq),
                fun hqk => hnd.1 (hqk ▸ hq)⟩)
          rw [this]
          simp [mapDictAux]

/-- With distinct keys, `mapDict` computes `mapDictAux` from index `0`. -/
theorem mapDict_eq_mapDictAux (dict : Dict T) (fn : T → Nat → S)
    (hnd : (objKeys dict).Nodup) : mapDict dict fn = mapDictAux fn 0 dict := by
  have h := mapDict_loop_eq fn dict dict 0 []
    (fun p hp => by
      obtain ⟨k, v⟩ := p
      simp [dictRead, objGet_mem dict k v hnd hp])
    hnd
    (fun k _ hk => by simp at hk)
  show (List.foldl (mapDictStep fn) (dict, [])
      (List.enumFrom 0 (dict.map Prod.fst))).2 = mapDictAux fn 0 dict
  rw [h]
  simp

/-- On a dictionary with no `undefined` stored value, `mapDictAux` keeps
every key in place and applies `fn` with the running index. -/
theorem mapDictAux_all_defined (fn : T → Nat → S) :
    ∀ (l : Dict T) (n : Nat), (∀ p ∈ l, p.2 ≠ none) →
      mapDictAux fn n l =
        (List.enumFrom n l).map
          (fun q => (q.2.1, Option.map (fun v => fn v q.1) q.2.2)) := by
  intro l
  induction l with
  | nil => intro n _; rfl
  | cons hd rest ih =>
      intro n hdef
      obtain ⟨k, v⟩ := hd
      cases v with
      | none => exact absurd rfl (hdef (k, none) (List.mem_cons_self _ _))
      | some w =>
          simp only [mapDictAux, List.enumFrom, List.map_cons, Option.map_some']
          rw [ih (n + 1) (fun p hp => hdef p (List.mem_cons_of_mem _ hp))]

/-- Mapping the identity entry-wise leaves a fully-defined tail unchanged. -/
theorem mapDictAux_id :
    ∀ (l : Dict T) (n : Nat), (∀ p ∈ l, p.2 ≠ none) →
      mapDictAux (fun (v : T) (_ : Nat) => v) n l = l := by
  intro l
  induction l with
  | nil => intro n _; rfl
  | cons hd rest ih =>
      intro n hdef
      obtain ⟨k, v⟩ := hd
      cases v with
      | none => exact absurd rfl (hdef (k, none) (List.mem_cons_self _ _))
      | some w =>
          simp only [mapDictAux]
          rw [ih (n + 1) (fun p hp => hdef p (List.mem_cons_of_mem _ hp))]

/-- The output keys of `mapDictAux` form a sublist of the input keys. -/
theorem mapDictAux_keys_sublist (fn : T → Nat → S) :
    ∀ (l : Dict T) (n : Nat),
      List.Sublist ((mapDictAux fn n l).map Prod.fst) (l.map Prod.fst) := by
  intro l
  induction l with
  | nil => intro n; simp [mapDictAux]
  | cons hd rest ih =>
      intro n
      obtain ⟨k, v⟩ := hd
      cases v with
      | none =>
          simp only [mapDictAux, List.map_cons]
          exact List.Sublist.cons k (ih (n + 1))
      | some w =>
          simp only [mapDictAux, List.map_cons]
          exact List.Sublist.cons₂ k (ih (n + 1))

/-- Index-ignoring maps compose entry-wise. -/
theorem mapDictAux_comp (f : T → S) (g : S → U) :
    ∀ (l : Dict T) (n m : Nat),
      mapDictAux (fun x (_ : Nat) => g x) m (mapDictAux (fun x (_ : Nat) => f x) n l) =
        mapDictAux (fun x (_ : Nat) => g (f x)) n l := by
  intro l
  induction l with
  | nil => intro n m; rfl
  | cons hd rest ih =>
      intro n m
      obtain ⟨k, v⟩ := hd
      cases v with
      | none =>
          simp only [mapDictAux]
          exact ih (n + 1) m
      | some w =>
          simp only [mapDictAux]
          rw [ih (n + 1) (m + 1)]

/-- Claim C5 (amended): on a dictionary with distinct keys in which every
key holds a defined value, `mapDict` produces a map with exactly the same
keys in the same iteration order, each value replaced by `fn` applied to the
original value and the entry's ordinal position in iteration order (the index
`Object.keys(dict).forEach` supplies).  Keys holding `undefined` are dropped
from the output (see the counterexample), which is the only restriction
needed on the original claim. -/
theorem mapDict_keys_order_values (dict : Dict T) (fn : T → Nat → S)
    (hnd : (objKeys dict).Nodup) (hdef : ∀ p ∈ dict, p.2 ≠ none) :
    mapDict dict fn =
      dict.enum.map (fun q => (q.2.1, Option.map (fun v => fn v q.1) q.2.2)) := by
  rw [mapDict_eq_mapDictAux dict fn hnd]
  exact mapDictAux_all_defined fn dict 0 hdef

/-- Claim C5, witness. -/
theorem mapDict_keys_order_values_witness :
    mapDict [("a", some 1), ("b", some 2)] (fun (v : Nat) (i : Nat) => v + i) =
      ([("a", some 1), ("b", some 2)] : Dict Nat).enum.map
        (fun q => (q.2.1, Option.map (fun v => v + q.1) q.2.2)) :=
  mapDict_keys_order_values _ _ (by decide) (by decide)

/-- Claim C5, counterexample: a key holding `undefined` is dropped by
`mapDict`, so the output keys differ from the input keys. -/
theorem mapDict_drops_undefined_key :
    objKeys (mapDict [("a", none), ("b", some 1)]
        (fun (v : Nat) (_ : Nat) => v)) = ["b"] ∧
    objKeys (mapDict [("a", none), ("b", some 1)]
        (fun (v : Nat) (_ : Nat) => v)) ≠
      objKeys [("a", (none : Option Nat)), ("b", some 1)] :=
  ⟨by decide, by decide⟩

/-- Claim C6 (amended): on a dictionary with distinct keys in which every
key holds a defined value, mapping the identity returns a map with identical
keys, order, and values.  Keys holding `undefined` are dropped (see the
counterexample), which is the only restriction needed on the original
claim. -/
theorem mapDict_identity (dict : Dict T)
    (hnd : (objKeys dict).Nodup) (hdef : ∀ p ∈ dict, p.2 ≠ none) :
    mapDict dict (fun v _ => v) = dict := by
  rw [mapDict_eq_mapDictAux dict _ hnd]
  exact mapDictAux_id dict 0 hdef

/-- Claim C6, witness. -/
theorem mapDict_identity_witness :
    mapDict [("x", some 3), ("y", some 7)] (fun (v : Nat) _ => v) =
      [("x", some 3), ("y", some 7)] :=
  mapDict_identity _ (by decide) (by decide)

/-- Claim C6, counterexample: mapping the identity over a dictionary holding
an `undefined` value does not return an identical map - the entry is
dropped. -/
theorem mapDict_identity_drops_undefined :
    mapDict [("a", (none : Option Nat))] (fun v _ => v) = [] ∧
    mapDict [("a", (none : Option Nat))] (fun v _ => v) ≠ [("a", none)] :=
  ⟨by decide, by decide⟩

/-- Claim C7: for a dictionary with distinct keys and pure (index-ignoring)
functions `f` and `g`, mapping `f` then `g` equals mapping the composition
once.  This holds even when some values are `undefined`: both sides drop
those entries. -/
theorem mapDict_composition (dict : Dict T) (f : T → S) (g : S → U)
    (hnd : (objKeys dict).Nodup) :
    mapDict (mapDict dict (fun x _ => f x)) (fun x _ => g x) =
      mapDict dict (fun x _ => g (f x)) := by
  have h1 := mapDict_eq_mapDictAux dict (fun x (_ : Nat) => f x) hnd
  have hnd1 : ((mapDictAux (fun x (_ : Nat) => f x) 0 dict).map Prod.fst).Nodup :=
    List.Nodup.sublist (mapDictAux_keys_sublist _ dict 0) hnd
  calc mapDict (mapDict dict (fun x _ => f x)) (fun x _ => g x)
      = mapDictAux (fun x (_ : Nat) => g x) 0
          (mapDictAux (fun x (_ : Nat) => f x) 0 dict) := by
        rw [h1]
        exact mapDict_eq_mapDictAux _ _ hnd1
    _ = mapDictAux (fun x (_ : Nat) => g (f x)) 0 dict :=
        mapDictAux_comp f g dict 0 0
    _ = mapDict dict (fun x _ => g (f x)) :=
        (mapDict_eq_mapDictAux dict _ hnd).symm

/-- Claim C7, witness. -/
theorem mapDict_composition_witness :
    mapDict (mapDict [("a", some 1), ("b", none), ("c", some 5)]
        (fun (x : Nat) (_ : Nat) => x + 1)) (fun x _ => x * 2) =
      mapDict [("a", some 1), ("b", none), ("c", some 5)]
        (fun x _ => (x + 1) * 2) :=
  mapDict_composition _ _ _ (by decide)

/-- Claim C8: `mapDict` does not mutate its receiver: after its loop has run,
the `dict` object is exactly what it was before the call (the loop body only
ever writes to the fresh `out` object). -/
theorem mapDict_no_mutation (dict : Dict T) (fn : T → Nat → S) :
    (mapDictRun dict fn).1 = dict :=
  mapDict_foldl_fst fn ((objKeys dict).enum) (dict, [])

/-! ## `reduceDict` -/

/-- Instantiated with an accumulator that records each visit, `reduceDict`
on a fully-defined dictionary produces exactly the dictionary itself: every
entry is visited exactly once, in iteration order. -/
theorem reduceDict_trace :
    ∀ (l : Dict T) (acc : Dict T), (∀ p ∈ l, p.2 ≠ none) →
      reduceDict l (fun a v k => a ++ [(k, some v)]) acc = acc ++ l := by
  intro l
  induction l with
  | nil => intro acc _; simp [reduceDict]
  | cons hd rest ih =>
      intro acc hdef
      obtain ⟨k, v⟩ := hd
      cases v with
      | none => exact absurd rfl (hdef (k, none) (List.mem_cons_self _ _))
      | some w =>
          show reduceDict rest (fun a v k => a ++ [(k, some v)])
              (acc ++ [(k, some w)]) = acc ++ (k, some w) :: rest
          rw [ih (acc ++ [(k, some w)])
            (fun p hp => hdef p (List.mem_cons_of_mem _ hp))]
          simp

/-- `reduceDict` is the left fold of `fn` over the defined entries in
iteration order. -/
theorem reduceDict_eq_foldl_entries :
    ∀ (l : Dict T) (fn : A → T → String → A) (init : A),
      reduceDict l fn init =
        List.foldl (fun a p => fn a p.2 p.1) init
          (l.filterMap (fun p => Option.map (fun v => (p.1, v)) p.2)) := by
  intro l
  induction l with
  | nil => intro fn init; rfl
  | cons hd rest ih =>
      intro fn init
      obtain ⟨k, v⟩ := hd
      cases v with
      | none =>
          show reduceDict rest fn init = _
          rw [ih]
          simp [List.filterMap_cons]
      | some w =>
          show reduceDict rest fn (fn init w k) = _
          rw [ih]
          simp [List.filterMap_cons]

/-- Claim C9: `reduceDict` folds the accumulator function over the
dictionary's entries in iteration order, visiting every entry exactly once,
and returns the final accumulator.  The first conjunct instantiates the
accumulator to the visit log and shows it equals the dictionary itself; the
second shows the result is the left fold of `fn` over the entries in order.
(`reduceDict` is an empty stub in the source and is modelled from the
spec.) -/
theorem reduceDict_folds_in_order (A : Type) (dict : Dict T)
    (fn : A → T → String → A) (init : A)
    (hdef : ∀ p ∈ dict, p.2 ≠ none) :
    reduceDict dict (fun a v k => a ++ [(k, some v)]) [] = dict ∧
    reduceDict dict fn init =
      List.foldl (fun a p => fn a p.2 p.1) init
        (dict.filterMap (fun p => Option.map (fun v => (p.1, v)) p.2)) := by
  refine ⟨?_, reduceDict_eq_foldl_entries dict fn init⟩
  simpa using reduceDict_trace dict [] hdef

/-- Claim C9, witness. -/
theorem reduceDict_folds_in_order_witness :
    reduceDict [("a", some 1), ("b", some 2)]
        (fun (a : Dict Nat) (v : Nat) (k : String) => a ++ [(k, some v)]) [] =
      [("a", some 1), ("b", some 2)] ∧
    reduceDict [("a", some 1), ("b", some 2)]
        (fun (a : Nat) (v : Nat) (_ : String) => a + v) 0 =
      List.foldl (fun a p => a + p.2) 0
        (([("a", some 1), ("b", some 2)] : Dict Nat).filterMap
          (fun p => Option.map (fun v => (p.1, v)) p.2)) :=
  reduceDict_folds_in_order Nat _ _ 0 (by decide)

/-! ## `arrayToDict` -/

/-- The loop of `arrayToDict` never writes to the input array. -/
theorem arrayToDict_foldl_fst (l : List (IdRecord β)) :
    ∀ st : List (IdRecord β) × List (String × IdRecord β),
      (List.foldl arrayToDictStep st l).1 = st.1 := by
  induction l with
  | nil => intro st; rfl
  | cons a rest ih =>
      intro st
      rw [List.foldl_cons, ih]
      rfl

/-- The `out` object of `arrayToDict` is a plain fold of writes. -/
theorem arrayToDict_foldl_snd (l : List (IdRecord β)) :
    ∀ st : List (IdRecord β) × List (String × IdRecord β),
      (List.foldl arrayToDictStep st l).2 =
        List.foldl (fun out v => objSet out v.id v) st.2 l := by
  induction l with
  | nil => intro st; rfl
  | cons a rest ih =>
      intro st
      rw [List.foldl_cons, List.foldl_cons, ih]
      rfl

/-- Reading the object built by `arrayToDict`'s loop finds the last element
of the array whose `id` equals the key, falling back to the initial
object. -/
theorem objGet_arrayToDict_loop (k : String) :
    ∀ (l : List (IdRecord β)) (out : List (String × IdRecord β)),
      objGet (List.foldl (fun o v => objSet o v.id v) out l) k =
        (List.find? (fun r => r.id == k) l.reverse).or (objGet out k) := by
  intro l
  induction l with
  | nil => intro out; simp
  | cons a rest ih =>
      intro out
      rw [List.foldl_cons, ih, List.reverse_cons, List.find?_append,
        objGet_objSet]
      cases hfind : List.find? (fun r => r.id == k) rest.reverse with
      | some r => rfl
      | none =>
          rw [Option.none_or]
          by_cases h : a.id = k
          · have hb : (a.id == k) = true := by simp [h]
            simp [List.find?, hb, h]
          · have hb : (a.id == k) = false := by simp [h]
            simp [List.find?, hb, h]

/-- The loop of `arrayToDict` keeps the object's keys pairwise distinct. -/
theorem arrayToDict_loop_nodup :
    ∀ (l : List (IdRecord β)) (out : List (String × IdRecord β)),
      (out.map Prod.fst).Nodup →
      ((List.foldl (fun o v => objSet o v.id v) out l).map Prod.fst).Nodup := by
  intro l
  induction l with
  | nil => intro out h; exact h
  | cons a rest ih =>
      intro out h
      rw [List.foldl_cons]
      exact ih _ (objSet_nodup out a.id a h)

/-- Claim C10: `arrayToDict` leaves the input array unchanged, returns an
object with pairwise-distinct keys whose key set is exactly the set of `id`
values occurring in the array, and maps each key to the last element of the
array carrying that `id` (later elements overwrite earlier ones). -/
theorem arrayToDict_spec (β : Type) (array : List (IdRecord β)) :
    (arrayToDictRun array).1 = array ∧
    (objKeys (arrayToDict array)).Nodup ∧
    (∀ k : String, k ∈ objKeys (arrayToDict array) ↔ k ∈ array.map IdRecord.id) ∧
    (∀ k : String,
      objGet (arrayToDict array) k =
        List.find? (fun r => r.id == k) array.reverse) := by
  have hsnd : arrayToDict array =
      List.foldl (fun out v => objSet out v.id v) [] array :=
    arrayToDict_foldl_snd array (array, [])
  have hget : ∀ k : String, objGet (arrayToDict array) k =
      List.find? (fun r => r.id == k) array.reverse := by
    intro k
    rw [hsnd, objGet_arrayToDict_loop k array []]
    simp [objGet]
  refine ⟨arrayToDict_foldl_fst array (array, []), ?_, ?_, hget⟩
  · rw [hsnd]
    exact arrayToDict_loop_nodup array [] (by simp)
  · intro k
    constructor
    · intro hk
      have h1 : objGet (arrayToDict array) k ≠ none := by
        intro hc
        exact (objGet_eq_none_iff _ _).mp hc hk
      rw [hget k] at h1
      cases hfind : List.find? (fun r => r.id == k) array.reverse with
      | none => exact absurd hfind h1
      | some r =>
          have hmem : r ∈ array.reverse := List.mem_of_find?_eq_some hfind
          have hp := List.find?_some hfind
          have hrk : r.id = k := by simpa using hp
          exact hrk ▸ List.mem_map_of_mem IdRecord.id (List.mem_reverse.mp hmem)
    · intro hk
      obtain ⟨r, hr, hrid⟩ := List.mem_map.mp hk
      have hfind : List.find? (fun x => x.id == k) array.reverse ≠ none := by
        rw [Ne, List.find?_eq_none]
        push_neg
        exact ⟨r, List.mem_reverse.mpr hr, by simp [hrid]⟩
      have h2 : objGet (arrayToDict array) k ≠ none := by
        rw [hget k]; exact hfind
      by_contra hc
      exact h2 ((objGet_eq_none_iff _ _).mpr hc)

end TsFund
